import Mathlib

/-!
Verification development for `git-patchstat.py`, a single-file tool that
computes per-contributor statistics from a git history.  The Python source
is shallowly embedded below: pure fragments become Lean functions, the
mutable aggregation state of `parse_git_commits` becomes explicit state
passing over a `List Commit`, and the `re.findall` call on the fixed
pattern family `rf"{tag}:\s+.*{re.escape(name)}.*"` (with `re.IGNORECASE`)
is modelled by a dedicated executable matcher.  Repository access
(`git.Repo`) is external: commits are taken as an input list carrying the
fields the program reads (hexsha, author name/email, message, UTC commit
year, parent count, changed file paths).
-/

/-! ## Character and list-of-char helpers

Python string primitives used by the source (`str.lower`, `in`,
`str.startswith`, `str.strip`, `str.split("/")`) are modelled by
structurally recursive functions on `List Char` so that everything
evaluates by kernel reduction. -/

/-- ASCII lowering of a string, modelling Python `str.lower()` on the
ASCII identities and messages the tool handles. -/
def lowerStr (s : String) : String := ⟨s.data.map Char.toLower⟩

/-- Whitespace class of Python's regex `\s` (ASCII range). -/
def isPySpace (c : Char) : Bool :=
  c == ' ' || c == '\t' || c == '\n' || c == '\r' || c == '\x0B' || c == '\x0C'

/-- `leadsWith needle hay` : `hay` starts with `needle` (exact characters). -/
def leadsWith : List Char → List Char → Bool
  | [], _ => true
  | _ :: _, [] => false
  | a :: as, b :: bs => a == b && leadsWith as bs

/-- `occursIn needle hay` : `needle` occurs contiguously in `hay`;
models Python's `needle in hay`. -/
def occursIn (needle : List Char) : List Char → Bool
  | [] => leadsWith needle []
  | c :: rest => leadsWith needle (c :: rest) || occursIn needle rest

/-- Python `needle in hay` on strings (exact characters). -/
def strContains (hay needle : String) : Bool := occursIn needle.data hay.data

/-- Case-insensitive `leadsWith`, modelling literal characters matched
under `re.IGNORECASE`. -/
def leadsWithCI : List Char → List Char → Bool
  | [], _ => true
  | _ :: _, [] => false
  | a :: as, b :: bs => a.toLower == b.toLower && leadsWithCI as bs

/-- Case-insensitive `occursIn`. -/
def occursInCI (needle : List Char) : List Char → Bool
  | [] => leadsWithCI needle []
  | c :: rest => leadsWithCI needle (c :: rest) || occursInCI needle rest

/-- Python `line.startswith(pre)`. -/
def pyStartsWith (s pre : String) : Bool := leadsWith pre.data s.data

/-- Python `str.strip()` (strip leading and trailing whitespace). -/
def pyStrip (s : String) : String :=
  ⟨((s.data.dropWhile (fun c => isPySpace c)).reverse.dropWhile
      (fun c => isPySpace c)).reverse⟩

/-! ## The trailer-tag regex of `parse_git_commits` (source line 149)

The source builds `pattern = rf"{tag}:\s+.*{re.escape(name)}.*"` and runs
`re.findall(pattern, message, re.IGNORECASE)` (line 150).  Because of
`re.escape`, `name` is matched as literal text.  The pattern therefore has
the fixed shape: literal `tag`, literal `":"`, `\s+` (one or more
whitespace characters, newlines included), `.*` (any characters except
newline), literal `name`, `.*`.  A match starting at a position succeeds
iff the text starts with `tag:` (case-insensitively), followed by at least
one whitespace character, such that after consuming some non-empty prefix
of the maximal whitespace run, the remainder of that line contains `name`
(case-insensitively).  Backtracking order (`\s+` greedy, tried longest
first) fixes which line the match ends on; the trailing greedy `.*` always
extends the match to the end of that line.  `re.findall` scans left to
right, taking non-overlapping matches and resuming after each match. -/

/-- Backtracking of `\s+`: `j` is the text right after `tag:`; the fuel
counts down the number of whitespace characters consumed (greedy: longest
first).  On success, returns the number of characters matched after
`tag:` (the whitespace plus the rest of the final line, consumed by the
trailing greedy `.*`). -/
def tryWs (name : List Char) (j : List Char) : Nat → Option Nat
  | 0 => none
  | n + 1 =>
    let seg := (j.drop (n + 1)).takeWhile (fun c => c != '\n')
    if occursInCI name seg then some (n + 1 + seg.length)
    else tryWs name j n

/-- Length of the regex match starting exactly at the head of `s`, if any
(`none` when the pattern does not match at this position). -/
def matchLen (tag name : List Char) (s : List Char) : Option Nat :=
  let t := tag ++ [':']
  if leadsWithCI t s then
    let j := s.drop t.length
    match tryWs name j ((j.takeWhile (fun c => isPySpace c)).length) with
    | some k => some (t.length + k)
    | none => none
  else none

/-- Left-to-right non-overlapping scan of `re.findall`, counting matches.
Every match consumes at least `tag:` (length ≥ 2), so fuel equal to the
initial text length is always sufficient. -/
def scanGo (tag name : List Char) : Nat → List Char → Nat
  | 0, _ => 0
  | _, [] => 0
  | fuel + 1, c :: rest =>
    match matchLen tag name (c :: rest) with
    | some L => 1 + scanGo tag name fuel ((c :: rest).drop L)
    | none => scanGo tag name fuel rest

/-- `len(re.findall(rf"{tag}:\s+.*{re.escape(name)}.*", message, re.IGNORECASE))`
from source lines 149-150. -/
def findallCount (tag name message : String) : Nat :=
  scanGo tag.data name.data message.data.length message.data

/-! ## Constants (source lines 19-35) -/

/-- Tags looked for in the message body (source `LINUX_TAGS`). -/
def LINUX_TAGS : List String :=
  ["Signed-off-by", "Acked-by", "Reviewed-by",
   "Reported-by", "Tested-by", "Cc", "Co-developed-by"]

/-! ## Cache model (source lines 61-80)

The JSON cache is a Python dict from commit hexsha to a metadata entry.
It is modelled as an association list with first-match lookup and
replace-in-place-or-append insertion, matching dict semantics. -/

/-- One cache entry: `{author_name, author_email, message, year}`
(source lines 72-77). -/
structure CacheEntry where
  author_name : String
  author_email : String
  message : String
  year : Int
deriving DecidableEq

/-- The per-repository cache dict. -/
abbrev Cache := List (String × CacheEntry)

/-- Dict lookup (`cache[sha]` / `sha in cache`). -/
def dictLookup (d : Cache) (k : String) : Option CacheEntry :=
  match d with
  | [] => none
  | (k', v) :: rest => if k' = k then some v else dictLookup rest k

/-- Dict assignment `d[k] = v`: overwrite in place, else append. -/
def dictInsert (d : Cache) (k : String) (v : CacheEntry) : Cache :=
  match d with
  | [] => [(k, v)]
  | (k', v') :: rest =>
      if k' = k then (k, v) :: rest else (k', v') :: dictInsert rest k v

/-- `cache.update(new_cache)` (source line 161): insert every entry of
`nd` into `d`, in order. -/
def dictUpdate (d nd : Cache) : Cache :=
  nd.foldl (fun acc p => dictInsert acc p.1 p.2) d

/-! ## Commits and metadata extraction -/

/-- The per-commit data the program reads from the repository: identifier,
author display name (empty if absent), author email (empty if absent),
full message, UTC calendar year of `committed_date`, number of parents,
and the changed file paths of `commit.stats.files`. -/
structure Commit where
  hexsha : String
  authorName : String
  authorEmail : String
  message : String
  committedYear : Int
  parentCount : Nat
  files : List String
deriving DecidableEq

/-- The metadata entry computed from a commit on a cache miss
(source lines 67-77; the UTC year extraction from `committed_date` is
pre-resolved into `committedYear`). -/
def mkEntry (c : Commit) : CacheEntry :=
  ⟨c.authorName, c.authorEmail, c.message, c.committedYear⟩

/-- `get_commit_metadata(commit, cache, new_cache)` (source lines 61-80):
on a cache hit return the cached entry verbatim and leave `new_cache`
alone; on a miss build the entry from the commit and register it in
`new_cache`.  The returned pair `(sha, entry)` carries the source's
5-tuple `(sha, author_name, author_email, message, year)`. -/
def get_commit_metadata (commit : Commit) (cache : Cache) (new_cache : Cache) :
    (String × CacheEntry) × Cache :=
  match dictLookup cache commit.hexsha with
  | some entry => ((commit.hexsha, entry), new_cache)
  | none =>
      ((commit.hexsha, mkEntry commit),
       dictInsert new_cache commit.hexsha (mkEntry commit))

/-- The metadata entry a commit resolves to against a given cache
(the first component of `get_commit_metadata`, without the
`new_cache` side effect). -/
def metaOf (cache : Cache) (c : Commit) : CacheEntry :=
  match dictLookup cache c.hexsha with
  | some e => e
  | none => mkEntry c

/-! ## Aggregation state of `parse_git_commits` (source lines 84-167) -/

/-- `author_matches` rule of source line 112:
`name_lower in author.lower() or name_lower in email.lower()`. -/
def author_matches (name author email : String) : Bool :=
  strContains (lowerStr author) (lowerStr name) ||
  strContains (lowerStr email) (lowerStr name)

/-- Increment `contributions[tag][year] += n` on the
`defaultdict(lambda: defaultdict(int))` (modelled as a total function
with default 0). -/
def bump2 (f : String → Int → Nat) (tag : String) (year : Int) (n : Nat) :
    String → Int → Nat :=
  fun t y => if t = tag ∧ y = year then f t y + n else f t y

/-- Increment `email_author_counts[email] += 1`. -/
def bump1 (f : String → Nat) (k : String) : String → Nat :=
  fun k' => if k' = k then f k' + 1 else f k'

/-- Python `set.add` on a set of years modelled as a duplicate-free list. -/
def setAddInt (l : List Int) (y : Int) : List Int :=
  if y ∈ l then l else l ++ [y]

/-- Python `set.add` on a set of strings modelled as a duplicate-free list. -/
def setAddStr (l : List String) (s : String) : List String :=
  if s ∈ l then l else l ++ [s]

/-- Running-minimum update of source lines 157-158. -/
def minUpd (m : Option Int) (year : Int) : Option Int :=
  match m with
  | none => some year
  | some v => if year < v then some year else some v

/-- One step of the trailer-tag loop body (source lines 148-153) acting on
the pair (contributions, tag_match). -/
def tagStep (name message : String) (year : Int)
    (acc : (String → Int → Nat) × Bool) (tag : String) :
    (String → Int → Nat) × Bool :=
  let cnt := findallCount tag name message
  if 0 < cnt then (bump2 acc.1 tag year cnt, true) else acc

/-- The full trailer-tag loop `for tag in LINUX_TAGS: ...`
(source lines 148-153). -/
def tagScan (name message : String) (year : Int)
    (acc : (String → Int → Nat) × Bool) : (String → Int → Nat) × Bool :=
  LINUX_TAGS.foldl (tagStep name message year) acc

/-- Path truncation of source lines 131-135: split on `"/"`, drop the
filename, keep at most `dir_depth` leading segments, `"."` when the path
has no directory component. -/
def splitSlashGo (cur : List Char) : List Char → List String
  | [] => [⟨cur.reverse⟩]
  | c :: rest =>
      if c = '/' then (⟨cur.reverse⟩ : String) :: splitSlashGo [] rest
      else splitSlashGo (c :: cur) rest

/-- Python `path.split("/")`. -/
def splitSlash (s : String) : List String := splitSlashGo [] s.data

/-- Join a list of directory segments with `"/"` (Python `"/".join`). -/
def joinSlash : List String → String
  | [] => ""
  | [d] => d
  | d :: rest => d ++ "/" ++ joinSlash rest

/-- `top_dir` of one changed path (source lines 132-135). -/
def top_dir_of (dir_depth : Nat) (path : String) : String :=
  let parts := splitSlash path
  let dirs := parts.dropLast
  let depth := min dirs.length dir_depth
  if dirs.isEmpty then "." else joinSlash (dirs.take depth)

/-- Accumulator of the per-commit file loop (source lines 129-141):
the set of directories this commit touched, the per-directory file sets,
and the run-global set of already seen file paths. -/
structure DirAcc where
  touched : List String
  dir_files : String → List String
  seen : List String

/-- Body of `for path in stats:` (source lines 130-141). -/
def dirScanStep (dir_depth : Nat) (acc : DirAcc) (path : String) : DirAcc :=
  let td := top_dir_of dir_depth path
  let touched := setAddStr acc.touched td
  if path ∈ acc.seen then
    { acc with touched := touched }
  else
    { touched := touched,
      dir_files := fun d =>
        if d = td then setAddStr (acc.dir_files d) path else acc.dir_files d,
      seen := acc.seen ++ [path] }

/-- The observable aggregation state: every mutable local of
`parse_git_commits` except `new_cache` (source lines 90-99). -/
structure Obs where
  contributions : String → Int → Nat
  all_years : List Int
  min_year : Option Int
  email_usage : String → List Int
  email_author_counts : String → Nat
  dir_commits : String → Nat
  dir_files : String → List String
  seen_files : List String

/-- Directory statistics block of source lines 126-143 (run only when
`verbosity >= 2`): one pass over the commit's changed files, then one
increment of `dir_commits` per touched directory.  The per-commit
`try/except` guards repository diff failures, which cannot occur in this
embedding where the file list is given. -/
def applyDirStats (dir_depth : Nat) (files : List String) (ob : Obs) : Obs :=
  let acc := files.foldl (dirScanStep dir_depth)
    ⟨[], ob.dir_files, ob.seen_files⟩
  { ob with
    dir_files := acc.dir_files,
    seen_files := acc.seen,
    dir_commits := fun d =>
      if d ∈ acc.touched then ob.dir_commits d + 1 else ob.dir_commits d }

/-- The loop body of `parse_git_commits` (source lines 106-158) acting on
the observable state, given the resolved metadata `entry` of the commit.
The `continue` of line 119 is the first branch: an author-matched merge
commit updates only `Merges` and the email tallies and skips the trailer
scan and the year bookkeeping. -/
def processCommitCore (name : String) (dir_depth verbosity : Nat)
    (entry : CacheEntry) (commit : Commit) (ob : Obs) : Obs :=
  let author_match :=
    author_matches name entry.author_name entry.author_email
  let year := entry.year
  let email := entry.author_email
  if author_match && decide (1 < commit.parentCount) then
    -- merge commits don't count in Author or Sign-offs (line 119)
    { ob with
      contributions := bump2 ob.contributions "Merges" year 1,
      email_usage := fun e =>
        if e = email then setAddInt (ob.email_usage e) year
        else ob.email_usage e,
      email_author_counts := bump1 ob.email_author_counts email }
  else
    let ob1 :=
      if author_match then
        let obA :=
          { ob with
            contributions := bump2 ob.contributions "Author" year 1,
            email_usage := fun e =>
              if e = email then setAddInt (ob.email_usage e) year
              else ob.email_usage e,
            email_author_counts := bump1 ob.email_author_counts email }
        if 2 ≤ verbosity then applyDirStats dir_depth commit.files obA
        else obA
      else ob
    let scanned := tagScan name entry.message year (ob1.contributions, author_match)
    if scanned.2 || author_match then
      { ob1 with
        contributions := scanned.1,
        all_years := setAddInt ob1.all_years year,
        min_year := minUpd ob1.min_year year }
    else { ob1 with contributions := scanned.1 }

/-- The full mutable state of one run: the delta dict `new_cache`
(source line 89) plus the observable aggregation state. -/
structure AggState where
  new_cache : Cache
  obs : Obs

/-- One iteration of the commit loop: resolve metadata through the cache
(possibly extending `new_cache`), then run the aggregation body. -/
def processCommit (name : String) (dir_depth verbosity : Nat) (cache : Cache)
    (st : AggState) (commit : Commit) : AggState :=
  match get_commit_metadata commit cache st.new_cache with
  | ((_sha, entry), nc) =>
      { new_cache := nc,
        obs := processCommitCore name dir_depth verbosity entry commit st.obs }

/-- Initial aggregation state (source lines 89-99; all defaultdicts empty,
`min_year = None`). -/
def initObs : Obs :=
  { contributions := fun _ _ => 0, all_years := [], min_year := none,
    email_usage := fun _ => [], email_author_counts := fun _ => 0,
    dir_commits := fun _ => 0, dir_files := fun _ => [], seen_files := [] }

/-- Initial full state. -/
def initState : AggState := { new_cache := [], obs := initObs }

/-- Insertion sort used to model Python `sorted` on the year set. -/
def insertSorted (y : Int) : List Int → List Int
  | [] => [y]
  | x :: xs => if y ≤ x then y :: x :: xs else x :: insertSorted y xs

/-- Python `sorted(all_years)`. -/
def sortInts (l : List Int) : List Int := l.foldr insertSorted []

/-- The tuple returned by `parse_git_commits` (source lines 165-167),
plus the cache after the in-place `cache.update(new_cache)` of line 161. -/
structure AggResult where
  contributions : String → Int → Nat
  min_year : Option Int
  years : List Int
  email_usage : String → List Int
  email_author_counts : String → Nat
  dir_commits : String → Nat
  dir_files : String → List String
  new_cache : Cache
  cache_out : Cache
  cache_updated : Bool

/-- `parse_git_commits` (source lines 84-167) over a given commit list.
Progress printing (lines 107, 160) is a side effect outside the data
flow.  `cache_updated` is `bool(new_cache)` (line 167). -/
def parse_git_commits (name : String) (commits : List Commit) (cache : Cache)
    (dir_depth verbosity : Nat) : AggResult :=
  let st := commits.foldl (processCommit name dir_depth verbosity cache) initState
  { contributions := st.obs.contributions,
    min_year := st.obs.min_year,
    years := sortInts st.obs.all_years,
    email_usage := st.obs.email_usage,
    email_author_counts := st.obs.email_author_counts,
    dir_commits := st.obs.dir_commits,
    dir_files := st.obs.dir_files,
    new_cache := st.new_cache,
    cache_out := dictUpdate cache st.new_cache,
    cache_updated := !st.new_cache.isEmpty }

/-- The per-message tag scan viewed as the mapping `tag -> match count`
accumulated by source lines 148-153: a tag enters the mapping only when
its match count is positive (the `if matches:` guard of line 151). -/
def scan_tags (name message : String) : List (String × Nat) :=
  LINUX_TAGS.foldl (fun acc tag =>
    let cnt := findallCount tag name message
    if 0 < cnt then acc ++ [(tag, cnt)] else acc) []

/-- Lookup in the `scan_tags` mapping. -/
def tagLookup : List (String × Nat) → String → Option Nat
  | [], _ => none
  | (t, n) :: rest, k => if t = k then some n else tagLookup rest k

/-- Whether any trailer tag has a positive match count in the message
(the disjunction of the `if matches:` conditions of line 151). -/
def anyTagMatch (name message : String) : Bool :=
  LINUX_TAGS.any (fun t => decide (0 < findallCount t name message))

/-- The set of truncated directories touched by a commit's changed files
(the `touched_dirs` set of source lines 129-136). -/
def touchedDirs (dir_depth : Nat) (files : List String) : List String :=
  files.foldl (fun t p => setAddStr t (top_dir_of dir_depth p)) []

/-- The effect of one commit on the `new_cache` delta dict alone
(the `new_cache[sha] = entry` of source line 78, guarded by the cache
hit test of line 64). -/
def newEntriesStep (cache : Cache) (nc : Cache) (c : Commit) : Cache :=
  match dictLookup cache c.hexsha with
  | some _ => nc
  | none => dictInsert nc c.hexsha (mkEntry c)

/-- Duplicate-free keys of an association-list dict. -/
def KeysUnique (d : Cache) : Prop := d.Pairwise (fun a b => a.1 ≠ b.1)

/-! ## MAINTAINERS block parsing (source lines 191-227) -/

/-- The record built by `process_block` for a matched block
(source lines 217-225). -/
structure SubsystemInfo where
  subsystem : String
  role : String
  matched_line : String
  maintainers : List String
  reviewers : List String
  files : List String
deriving DecidableEq

/-- The mutable locals of `process_block` (source lines 193-199). -/
structure BlockState where
  title : Option String
  maintainers : List String
  reviewers : List String
  file_globs : List String
  matched_line : Option String
  role : Option String

/-- Python truthiness of the `title` local: falsy when still `None` or
the stripped line was empty. -/
def titleTruthy : Option String → Bool
  | none => false
  | some s => s != ""

/-- The loop body of `process_block` (source lines 201-215).  Note the
branch order: the title branch first, then `M:`, `R:`, `F:`; the identity
test is a case-insensitive substring test against the whole line; a
matching `M:` line unconditionally sets `role = "maintainer"`, a matching
`R:` line sets `"both"` exactly when the current role is `"maintainer"`,
else `"reviewer"` (source lines 207-213). -/
def blockStep (name_lower : String) (st : BlockState) (line : String) :
    BlockState :=
  if (!(pyStartsWith line " " || pyStartsWith line "\t")) && !(titleTruthy st.title) then
    { st with title := some (pyStrip line) }
  else if pyStartsWith line "M:" then
    let st1 := { st with maintainers := st.maintainers ++ [pyStrip (line.drop 2)] }
    if strContains (lowerStr line) name_lower then
      { st1 with matched_line := some (pyStrip line), role := some "maintainer" }
    else st1
  else if pyStartsWith line "R:" then
    let st1 := { st with reviewers := st.reviewers ++ [pyStrip (line.drop 2)] }
    if strContains (lowerStr line) name_lower then
      { st1 with matched_line := some (pyStrip line),
                 role := some (if st.role = some "maintainer" then "both" else "reviewer") }
    else st1
  else if pyStartsWith line "F:" then
    { st with file_globs := st.file_globs ++ [pyStrip (line.drop 2)] }
  else st

/-- `process_block(block, name)` (source lines 191-227). -/
def process_block (block : List String) (name : String) : Option SubsystemInfo :=
  let name_lower := lowerStr name
  let st := block.foldl (blockStep name_lower) ⟨none, [], [], [], none, none⟩
  match st.matched_line with
  | some ml =>
      some { subsystem :=
               match st.title with
               | some t => if t = "" then "<unknown>" else t
               | none => "<unknown>",
             role := st.role.getD "",
             matched_line := ml,
             maintainers := st.maintainers,
             reviewers := st.reviewers,
             files := st.file_globs }
  | none => none

/-! ## Tail of `main` after the aggregation (source lines 401-424) -/

/-- Observable outcome of the tail of `main`: whether the
"No contributions found" message is printed, whether the process exits
successfully, and whether `save_cache` is invoked. -/
structure MainOutcome where
  printedNoContributions : Bool
  exitSuccess : Bool
  cacheSaved : Bool
deriving DecidableEq

/-- Source lines 401-424: `if not years: print(...); return` exits the
program successfully before the `if cache_updated: save_cache(...)` at
line 423 is ever reached; otherwise the report is printed and the cache
is saved exactly when `cache_updated` is true. -/
def mainReport (years : List Int) (cache_updated : Bool) : MainOutcome :=
  if years.isEmpty then
    { printedNoContributions := true, exitSuccess := true, cacheSaved := false }
  else
    { printedNoContributions := false, exitSuccess := true,
      cacheSaved := cache_updated }

/-! ## Concrete commits used in scenarios -/

/-- Commit A of the spec scenario: non-merge, author "Amit Kucheria",
year 2020, message without trailers. -/
def commitA : Commit :=
  ⟨"aaa", "Amit Kucheria", "amit@example.com",
   "thermal: tweak governor\n\nSome body text.\n", 2020, 1, []⟩

/-- Commit B of the spec scenario: merge (two parents), author
"Amit Kucheria", year 2021. -/
def commitB : Commit :=
  ⟨"bbb", "Amit Kucheria", "amit@example.com",
   "Merge branch into mainline\n", 2021, 2, []⟩

/-- A merge commit whose author does not match the queried identity but
whose message names the identity in a trailer. -/
def commitMergeTrailer : Commit :=
  ⟨"mmm", "Bob Builder", "bob@x.com",
   "Merge tag\n\nReviewed-by: Jane <j@x.com>\n", 2021, 2, []⟩

/-- A non-merge commit with a `Reviewed-by` trailer naming
"Jane Q. Doe" and a non-matching author. -/
def commitReviewed : Commit :=
  ⟨"rrr", "Someone Else", "se@x.com",
   "fix: thing\n\nReviewed-by: Jane Q. Doe <jane@x.com>\n", 2020, 1, []⟩

/-- First of two commits touching the same file path. -/
def commitJane1 : Commit :=
  ⟨"s1", "Jane Doe", "jane@x.com", "patch one\n", 2020, 1,
   ["drivers/foo/bar.c"]⟩

/-- Second commit touching the same file path as `commitJane1`. -/
def commitJane2 : Commit :=
  ⟨"s2", "Jane Doe", "jane@x.com", "patch two\n", 2021, 1,
   ["drivers/foo/bar.c"]⟩

/-! ## Basic lemmas about the string helpers -/

theorem leadsWith_iff_exists (n : List Char) :
    ∀ h : List Char, leadsWith n h = true ↔ ∃ t, h = n ++ t := by
  induction n with
  | nil =>
      intro h
      simp [leadsWith]
  | cons a as ih =>
      intro h
      cases h with
      | nil =>
          simp [leadsWith]
      | cons b bs =>
          simp only [leadsWith, Bool.and_eq_true, beq_iff_eq, ih bs]
          constructor
          · rintro ⟨rfl, t, rfl⟩
            exact ⟨t, rfl⟩
          · rintro ⟨t, ht⟩
            cases ht
            exact ⟨rfl, t, rfl⟩

theorem occursIn_iff_exists (n : List Char) :
    ∀ h : List Char, occursIn n h = true ↔ ∃ p t, h = p ++ n ++ t := by
  intro h
  induction h with
  | nil =>
      simp only [occursIn, leadsWith_iff_exists]
      constructor
      · rintro ⟨t, ht⟩
        exact ⟨[], t, ht⟩
      · rintro ⟨p, t, ht⟩
        have h0 := List.append_eq_nil.mp ht.symm
        have h1 := List.append_eq_nil.mp h0.1
        exact ⟨[], by simp [h1.2]⟩
  | cons c rest ih =>
      simp only [occursIn, Bool.or_eq_true, leadsWith_iff_exists, ih]
      constructor
      · rintro (⟨t, ht⟩ | ⟨p, t, ht⟩)
        · exact ⟨[], t, by simpa using ht⟩
        · exact ⟨c :: p, t, by simp [ht]⟩
      · rintro ⟨p, t, ht⟩
        cases p with
        | nil => exact Or.inl ⟨t, by simpa using ht⟩
        | cons q qs =>
            right
            refine ⟨qs, t, ?_⟩
            simpa using (List.cons_eq_cons.mp ht).2

theorem occursIn_nil_needle : ∀ h : List Char, occursIn [] h = true
  | [] => rfl
  | _ :: rest => by simp [occursIn, leadsWith]

theorem strContains_empty (hay : String) : strContains hay "" = true := by
  simpa [strContains] using occursIn_nil_needle hay.data

/-! ## Case-insensitive occurrence lemmas -/

theorem leadsWithCI_nil_iff (n : List Char) :
    leadsWithCI n [] = true ↔ n = [] := by
  cases n <;> simp [leadsWithCI]

theorem leadsWithCI_append (n : List Char) :
    ∀ l t : List Char, leadsWithCI n l = true → leadsWithCI n (l ++ t) = true := by
  induction n with
  | nil => intro l t _; simp [leadsWithCI]
  | cons a as ih =>
      intro l t hl
      cases l with
      | nil => simp [leadsWithCI] at hl
      | cons b bs =>
          simp only [leadsWithCI, Bool.and_eq_true] at hl ⊢
          exact ⟨hl.1, ih bs t hl.2⟩

theorem occursInCI_nil_needle : ∀ h : List Char, occursInCI [] h = true
  | [] => rfl
  | _ :: rest => by simp [occursInCI, leadsWithCI]

theorem occursInCI_cons (n : List Char) (c : Char) (l : List Char)
    (h : occursInCI n l = true) : occursInCI n (c :: l) = true := by
  simp [occursInCI, h]

theorem occursInCI_append (n : List Char) :
    ∀ l t : List Char, occursInCI n l = true → occursInCI n (l ++ t) = true := by
  intro l
  induction l with
  | nil =>
      intro t h
      simp only [occursInCI] at h
      rcases (leadsWithCI_nil_iff n).mp h with rfl
      simpa using occursInCI_nil_needle t
  | cons c rest ih =>
      intro t h
      simp only [occursInCI, Bool.or_eq_true] at h ⊢
      rcases h with h | h
      · exact Or.inl (leadsWithCI_append n (c :: rest) t h)
      · exact Or.inr (ih t h)

theorem occursInCI_drop (n : List Char) :
    ∀ (k : Nat) (l : List Char), occursInCI n (l.drop k) = true →
      occursInCI n l = true := by
  intro k
  induction k with
  | zero => intro l h; simpa using h
  | succ m ih =>
      intro l h
      cases l with
      | nil => simpa using h
      | cons c rest =>
          exact occursInCI_cons n c rest (ih rest (by simpa using h))

theorem occursInCI_takeWhile (n : List Char) (p : Char → Bool) (l : List Char)
    (h : occursInCI n (l.takeWhile p) = true) : occursInCI n l = true := by
  have := occursInCI_append n (l.takeWhile p) (l.dropWhile p) h
  rwa [List.takeWhile_append_dropWhile] at this

/-! ## Soundness of the match counter: a positive count implies the
identity occurs literally (case-insensitively) in the message. -/

theorem tryWs_occurs (name j : List Char) :
    ∀ (n k : Nat), tryWs name j n = some k → occursInCI name j = true := by
  intro n
  induction n with
  | zero => intro k h; simp [tryWs] at h
  | succ m ih =>
      intro k h
      simp only [tryWs] at h
      split at h
      · next hseg =>
          have h1 := occursInCI_takeWhile name _ _ hseg
          exact occursInCI_drop name (m + 1) j h1
      · exact ih k h

theorem matchLen_occurs (tag name s : List Char) (L : Nat)
    (h : matchLen tag name s = some L) : occursInCI name s = true := by
  simp only [matchLen] at h
  split at h
  · split at h
    · next k hk =>
        exact occursInCI_drop name (tag ++ [':']).length s (tryWs_occurs name _ _ k hk)
    · exact absurd h (by simp)
  · exact absurd h (by simp)

theorem scanGo_occurs (tag name : List Char) :
    ∀ (fuel : Nat) (s : List Char), 0 < scanGo tag name fuel s →
      occursInCI name s = true := by
  intro fuel
  induction fuel with
  | zero => intro s h; simp [scanGo] at h
  | succ m ih =>
      intro s h
      cases s with
      | nil => simp [scanGo] at h
      | cons c rest =>
          simp only [scanGo] at h
          split at h
          · next L hL => exact matchLen_occurs tag name (c :: rest) L hL
          · exact occursInCI_cons name c rest (ih rest h)

theorem findallCount_occurs (tag name msg : String)
    (h : 0 < findallCount tag name msg) :
    occursInCI name.data msg.data = true :=
  scanGo_occurs tag.data name.data msg.data.length msg.data h

/-! ## Dict lemmas -/

theorem dictLookup_insert_self (d : Cache) (k : String) (v : CacheEntry) :
    dictLookup (dictInsert d k v) k = some v := by
  induction d with
  | nil => simp [dictInsert, dictLookup]
  | cons p rest ih =>
      by_cases h : p.1 = k
      · simp [dictInsert, dictLookup, h]
      · simpa [dictInsert, dictLookup, h] using ih

theorem dictLookup_insert_ne (d : Cache) (k : String) (v : CacheEntry)
    (k' : String) (h : k' ≠ k) :
    dictLookup (dictInsert d k v) k' = dictLookup d k' := by
  have h' : ¬ k = k' := fun hh => h hh.symm
  induction d with
  | nil => simp [dictInsert, dictLookup, h']
  | cons p rest ih =>
      by_cases hp : p.1 = k
      · simp [dictInsert, dictLookup, hp, h']
      · simp only [dictInsert, if_neg hp, dictLookup]
        by_cases hp' : p.1 = k'
        · simp [hp']
        · simp [hp', ih]

theorem mem_dictInsert (d : Cache) (k : String) (v : CacheEntry) :
    ∀ b ∈ dictInsert d k v, b.1 = k ∨ b ∈ d := by
  induction d with
  | nil => intro b hb; simp [dictInsert] at hb; simp [hb]
  | cons p rest ih =>
      intro b hb
      by_cases hp : p.1 = k
      · simp only [dictInsert, hp, if_pos rfl] at hb
        rcases List.mem_cons.mp hb with rfl | hb
        · exact Or.inl rfl
        · exact Or.inr (List.mem_cons_of_mem _ hb)
      · simp only [dictInsert, if_neg hp] at hb
        rcases List.mem_cons.mp hb with rfl | hb
        · exact Or.inr (List.mem_cons_self _ _)
        · rcases ih b hb with h | h
          · exact Or.inl h
          · exact Or.inr (List.mem_cons_of_mem _ h)

theorem keysUnique_insert (d : Cache) (k : String) (v : CacheEntry)
    (h : KeysUnique d) : KeysUnique (dictInsert d k v) := by
  induction d with
  | nil => simp [dictInsert, KeysUnique]
  | cons p rest ih =>
      rcases List.pairwise_cons.mp h with ⟨hp, hrest⟩
      by_cases hk : p.1 = k
      · simp only [dictInsert, if_pos hk]
        exact List.pairwise_cons.mpr ⟨fun b hb => hk ▸ hp b hb, hrest⟩
      · simp only [dictInsert, if_neg hk]
        refine List.pairwise_cons.mpr ⟨?_, ih hrest⟩
        intro b hb
        rcases mem_dictInsert rest k v b hb with h1 | h1
        · rw [h1]; exact hk
        · exact hp b h1

theorem dictLookup_none_of_keys (d : Cache) (k : String)
    (h : ∀ b ∈ d, b.1 ≠ k) : dictLookup d k = none := by
  induction d with
  | nil => rfl
  | cons p rest ih =>
      simp only [dictLookup, if_neg (h p (List.mem_cons_self _ _))]
      exact ih fun b hb => h b (List.mem_cons_of_mem _ hb)

theorem dictLookup_update_none (nd : Cache) :
    ∀ (d : Cache) (k : String), dictLookup nd k = none →
      dictLookup (dictUpdate d nd) k = dictLookup d k := by
  induction nd with
  | nil => intro d k _; rfl
  | cons p rest ih =>
      intro d k h
      simp only [dictLookup] at h
      by_cases hp : p.1 = k
      · simp [hp] at h
      · simp only [if_neg hp] at h
        have : dictUpdate d (p :: rest) = dictUpdate (dictInsert d p.1 p.2) rest := rfl
        rw [this, ih _ k h, dictLookup_insert_ne _ _ _ _ fun hh => hp hh.symm]

theorem dictLookup_update_some (nd : Cache) :
    ∀ (d : Cache) (k : String) (v : CacheEntry), KeysUnique nd →
      dictLookup nd k = some v →
      dictLookup (dictUpdate d nd) k = some v := by
  induction nd with
  | nil => intro d k v _ h; simp [dictLookup] at h
  | cons p rest ih =>
      intro d k v hu h
      rcases List.pairwise_cons.mp hu with ⟨hp, hrest⟩
      simp only [dictLookup] at h
      have hstep : dictUpdate d (p :: rest) = dictUpdate (dictInsert d p.1 p.2) rest := rfl
      by_cases hk : p.1 = k
      · simp only [if_pos hk] at h
        cases h
        have hnone : dictLookup rest k = none :=
          dictLookup_none_of_keys rest k fun b hb he => hp b hb (hk.trans he.symm)
        rw [hstep, dictLookup_update_none rest _ k hnone, hk,
          dictLookup_insert_self]
      · simp only [if_neg hk] at h
        rw [hstep]
        exact ih _ k v hrest h

/-! ## Projections of one commit step -/

theorem processCommit_obs (name : String) (d v : Nat) (cache : Cache)
    (st : AggState) (c : Commit) :
    (processCommit name d v cache st c).obs
      = processCommitCore name d v (metaOf cache c) c st.obs := by
  cases h : dictLookup cache c.hexsha <;>
    simp [processCommit, get_commit_metadata, metaOf, h]

theorem processCommit_new_cache (name : String) (d v : Nat) (cache : Cache)
    (st : AggState) (c : Commit) :
    (processCommit name d v cache st c).new_cache
      = newEntriesStep cache st.new_cache c := by
  cases h : dictLookup cache c.hexsha <;>
    simp [processCommit, get_commit_metadata, newEntriesStep, h]

/-! ## Fold lemmas for the whole run -/

theorem foldl_obs_congr (name : String) (d v : Nat) (cache cache' : Cache) :
    ∀ (commits : List Commit) (st st' : AggState), st.obs = st'.obs →
      (∀ c ∈ commits, metaOf cache c = metaOf cache' c) →
      (commits.foldl (processCommit name d v cache) st).obs
        = (commits.foldl (processCommit name d v cache') st').obs := by
  intro commits
  induction commits with
  | nil => intro st st' h _; simpa using h
  | cons c rest ih =>
      intro st st' h hm
      simp only [List.foldl_cons]
      refine ih _ _ ?_ fun c' hc' => hm c' (List.mem_cons_of_mem _ hc')
      rw [processCommit_obs, processCommit_obs, h, hm c (List.mem_cons_self _ _)]

theorem foldl_new_cache (name : String) (d v : Nat) (cache : Cache) :
    ∀ (commits : List Commit) (st : AggState),
      (commits.foldl (processCommit name d v cache) st).new_cache
        = commits.foldl (newEntriesStep cache) st.new_cache := by
  intro commits
  induction commits with
  | nil => intro st; rfl
  | cons c rest ih =>
      intro st
      simp only [List.foldl_cons]
      rw [ih, processCommit_new_cache]

/-! ## Lemmas about the accumulated `new_cache` -/

theorem newEntries_keysUnique (cache : Cache) :
    ∀ (commits : List Commit) (nc : Cache), KeysUnique nc →
      KeysUnique (commits.foldl (newEntriesStep cache) nc) := by
  intro commits
  induction commits with
  | nil => intro nc h; exact h
  | cons c rest ih =>
      intro nc h
      simp only [List.foldl_cons]
      refine ih _ ?_
      unfold newEntriesStep
      cases dictLookup cache c.hexsha
      · exact keysUnique_insert nc c.hexsha (mkEntry c) h
      · exact h

theorem newEntries_lookup_of_hit (cache : Cache) (k : String) (e : CacheEntry)
    (h : dictLookup cache k = some e) :
    ∀ (commits : List Commit) (nc : Cache),
      dictLookup (commits.foldl (newEntriesStep cache) nc) k = dictLookup nc k := by
  intro commits
  induction commits with
  | nil => intro nc; rfl
  | cons c rest ih =>
      intro nc
      simp only [List.foldl_cons]
      rw [ih]
      unfold newEntriesStep
      cases hc : dictLookup cache c.hexsha with
      | some _ => rfl
      | none =>
          have hne : k ≠ c.hexsha := by
            intro hk
            rw [hk, hc] at h
            exact Option.noConfusion h
          exact dictLookup_insert_ne nc c.hexsha (mkEntry c) k hne

theorem newEntries_lookup_stable (cache : Cache) (k : String) :
    ∀ (commits : List Commit) (nc : Cache), (∀ c ∈ commits, c.hexsha ≠ k) →
      dictLookup (commits.foldl (newEntriesStep cache) nc) k = dictLookup nc k := by
  intro commits
  induction commits with
  | nil => intro nc _; rfl
  | cons c rest ih =>
      intro nc h
      simp only [List.foldl_cons]
      rw [ih _ fun c' hc' => h c' (List.mem_cons_of_mem _ hc')]
      unfold newEntriesStep
      cases dictLookup cache c.hexsha with
      | some _ => rfl
      | none =>
          exact dictLookup_insert_ne nc c.hexsha (mkEntry c) k
            fun hk => h c (List.mem_cons_self _ _) hk.symm

theorem newEntries_lookup_of_miss (cache : Cache) :
    ∀ (commits : List Commit) (nc : Cache) (c : Commit),
      commits.Pairwise (fun a b => a.hexsha ≠ b.hexsha) →
      c ∈ commits → dictLookup cache c.hexsha = none →
      dictLookup (commits.foldl (newEntriesStep cache) nc) c.hexsha
        = some (mkEntry c) := by
  intro commits
  induction commits with
  | nil => intro nc c _ hc; exact absurd hc (List.not_mem_nil c)
  | cons x rest ih =>
      intro nc c hpw hc hmiss
      rcases List.pairwise_cons.mp hpw with ⟨hx, hrest⟩
      simp only [List.foldl_cons]
      rcases List.mem_cons.mp hc with rfl | hc
      · rw [newEntries_lookup_stable cache c.hexsha rest _
          fun c' hc' hk => hx c' hc' hk.symm]
        unfold newEntriesStep
        rw [hmiss]
        exact dictLookup_insert_self nc c.hexsha (mkEntry c)
      · exact ih _ c hrest hc hmiss

theorem newEntries_all_hit (cache : Cache) :
    ∀ (commits : List Commit) (nc : Cache),
      (∀ c ∈ commits, (dictLookup cache c.hexsha).isSome) →
      commits.foldl (newEntriesStep cache) nc = nc := by
  intro commits
  induction commits with
  | nil => intro nc _; rfl
  | cons c rest ih =>
      intro nc h
      simp only [List.foldl_cons]
      have hstep : newEntriesStep cache nc c = nc := by
        unfold newEntriesStep
        cases hc : dictLookup cache c.hexsha with
        | some _ => rfl
        | none =>
            have := h c (List.mem_cons_self _ _)
            rw [hc] at this
            simp at this
      rw [hstep]
      exact ih _ fun c' hc' => h c' (List.mem_cons_of_mem _ hc')

/-! ## Lemmas about bumps, sets, and the trailer-tag fold -/

theorem bump2_self (f : String → Int → Nat) (tag : String) (y : Int) (n : Nat) :
    bump2 f tag y n tag y = f tag y + n := by simp [bump2]

theorem bump2_ne (f : String → Int → Nat) (tag : String) (y : Int) (n : Nat)
    (t' : String) (y' : Int) (h : ¬(t' = tag ∧ y' = y)) :
    bump2 f tag y n t' y' = f t' y' := by simp [bump2, h]

theorem mem_setAddStr (l : List String) (x a : String) :
    a ∈ setAddStr l x ↔ a ∈ l ∨ a = x := by
  by_cases h : x ∈ l
  · simp only [setAddStr, if_pos h]
    constructor
    · exact Or.inl
    · rintro (ha | rfl) <;> [exact ha; exact h]
  · simp [setAddStr, if_neg h]

theorem tagFold_snd (name msg : String) (y : Int) :
    ∀ (l : List String) (f : String → Int → Nat) (b : Bool),
      (l.foldl (tagStep name msg y) (f, b)).2
        = (b || l.any (fun t => decide (0 < findallCount t name msg))) := by
  intro l
  induction l with
  | nil => intro f b; simp
  | cons t rest ih =>
      intro f b
      simp only [List.foldl_cons, List.any_cons]
      by_cases h : 0 < findallCount t name msg
      · rw [show tagStep name msg y (f, b) t
            = (bump2 f t y (findallCount t name msg), true) by simp [tagStep, h]]
        rw [ih]
        simp [h]
      · rw [show tagStep name msg y (f, b) t = (f, b) by simp [tagStep, h]]
        rw [ih]
        simp [h]

theorem tagFold_fst_not_mem (name msg : String) (y : Int) :
    ∀ (l : List String) (acc : (String → Int → Nat) × Bool)
      (t' : String) (y' : Int), t' ∉ l →
      (l.foldl (tagStep name msg y) acc).1 t' y' = acc.1 t' y' := by
  intro l
  induction l with
  | nil => intro acc t' y' _; rfl
  | cons t rest ih =>
      intro acc t' y' hmem
      have ht : t' ≠ t := fun h => hmem (h ▸ List.mem_cons_self _ _)
      have hrest : t' ∉ rest := fun h => hmem (List.mem_cons_of_mem _ h)
      simp only [List.foldl_cons]
      rw [ih _ t' y' hrest]
      unfold tagStep
      by_cases h : 0 < findallCount t name msg
      · simp only [if_pos h]
        exact bump2_ne acc.1 t y _ t' y' fun hc => ht hc.1
      · simp [h]

theorem tagScan_snd (name msg : String) (y : Int) (f : String → Int → Nat)
    (b : Bool) :
    (tagScan name msg y (f, b)).2 = (b || anyTagMatch name msg) := by
  unfold tagScan anyTagMatch
  exact tagFold_snd name msg y LINUX_TAGS f b

theorem tagScan_fst_author (name msg : String) (y : Int)
    (acc : (String → Int → Nat) × Bool) (y' : Int) :
    (tagScan name msg y acc).1 "Author" y' = acc.1 "Author" y' := by
  unfold tagScan
  exact tagFold_fst_not_mem name msg y LINUX_TAGS acc "Author" y' (by decide)

theorem tagScan_fst_merges (name msg : String) (y : Int)
    (acc : (String → Int → Nat) × Bool) (y' : Int) :
    (tagScan name msg y acc).1 "Merges" y' = acc.1 "Merges" y' := by
  unfold tagScan
  exact tagFold_fst_not_mem name msg y LINUX_TAGS acc "Merges" y' (by decide)

/-! ## Lemmas about the directory-statistics block -/

theorem applyDirStats_contributions (d : Nat) (files : List String) (ob : Obs) :
    (applyDirStats d files ob).contributions = ob.contributions := rfl

theorem applyDirStats_all_years (d : Nat) (files : List String) (ob : Obs) :
    (applyDirStats d files ob).all_years = ob.all_years := rfl

theorem applyDirStats_min_year (d : Nat) (files : List String) (ob : Obs) :
    (applyDirStats d files ob).min_year = ob.min_year := rfl

theorem dirFold_touched (d : Nat) :
    ∀ (files : List String) (acc : DirAcc),
      (files.foldl (dirScanStep d) acc).touched
        = files.foldl (fun t p => setAddStr t (top_dir_of d p)) acc.touched := by
  intro files
  induction files with
  | nil => intro acc; rfl
  | cons p rest ih =>
      intro acc
      simp only [List.foldl_cons]
      rw [ih]
      unfold dirScanStep
      by_cases h : p ∈ acc.seen <;> simp [h]

theorem dirFold_dedup (d : Nat) (q : String) :
    ∀ (files : List String) (acc : DirAcc), q ∈ acc.seen →
      (∀ dir, (q ∈ (files.foldl (dirScanStep d) acc).dir_files dir
                ↔ q ∈ acc.dir_files dir))
        ∧ q ∈ (files.foldl (dirScanStep d) acc).seen := by
  intro files
  induction files with
  | nil => intro acc h; exact ⟨fun _ => Iff.rfl, h⟩
  | cons p rest ih =>
      intro acc h
      simp only [List.foldl_cons]
      by_cases hp : p ∈ acc.seen
      · have hstep : dirScanStep d acc p
            = { acc with touched := setAddStr acc.touched (top_dir_of d p) } := by
          simp [dirScanStep, hp]
        rw [hstep]
        exact ih _ h
      · have hq : q ≠ p := fun he => hp (he ▸ h)
        have hstep : dirScanStep d acc p
            = { touched := setAddStr acc.touched (top_dir_of d p),
                dir_files := fun dd =>
                  if dd = top_dir_of d p then setAddStr (acc.dir_files dd) p
                  else acc.dir_files dd,
                seen := acc.seen ++ [p] } := by
          simp [dirScanStep, hp]
        rw [hstep]
        have hmem : q ∈ acc.seen ++ [p] := List.mem_append_left _ h
        rcases ih { touched := setAddStr acc.touched (top_dir_of d p),
                    dir_files := fun dd =>
                      if dd = top_dir_of d p then setAddStr (acc.dir_files dd) p
                      else acc.dir_files dd,
                    seen := acc.seen ++ [p] } hmem with ⟨hdf, hseen⟩
        refine ⟨fun dir => ?_, hseen⟩
        rw [hdf dir]
        show q ∈ (if dir = top_dir_of d p then setAddStr (acc.dir_files dir) p
                  else acc.dir_files dir) ↔ q ∈ acc.dir_files dir
        by_cases hd : dir = top_dir_of d p
        · rw [if_pos hd, mem_setAddStr]
          simp [hq]
        · rw [if_neg hd]

/-! ## Path lemmas for the per-commit aggregation body -/

theorem coreMerge (name : String) (d v : Nat) (e : CacheEntry) (c : Commit)
    (ob : Obs) (ha : author_matches name e.author_name e.author_email = true)
    (hm : 1 < c.parentCount) :
    processCommitCore name d v e c ob =
      { ob with
        contributions := bump2 ob.contributions "Merges" e.year 1,
        email_usage := fun em =>
          if em = e.author_email then setAddInt (ob.email_usage em) e.year
          else ob.email_usage em,
        email_author_counts := bump1 ob.email_author_counts e.author_email } := by
  have hd : decide (1 < c.parentCount) = true := decide_eq_true hm
  simp [processCommitCore, ha, hd]

theorem core_all_years (name : String) (d v : Nat) (e : CacheEntry) (c : Commit)
    (ob : Obs)
    (h : ¬(author_matches name e.author_name e.author_email = true
           ∧ 1 < c.parentCount)) :
    (processCommitCore name d v e c ob).all_years
      = (if (author_matches name e.author_name e.author_email
             || anyTagMatch name e.message) = true
         then setAddInt ob.all_years e.year else ob.all_years) := by
  by_cases ha : author_matches name e.author_name e.author_email = true
  · have hm : ¬ 1 < c.parentCount := fun hm => h ⟨ha, hm⟩
    have hd : decide (1 < c.parentCount) = false := decide_eq_false hm
    by_cases hv : 2 ≤ v <;>
      simp [processCommitCore, ha, hd, hv, tagScan_snd,
        applyDirStats_all_years, apply_ite]
  · have ha' : author_matches name e.author_name e.author_email = false :=
      Bool.eq_false_iff.mpr ha
    by_cases ht : anyTagMatch name e.message = true
    · simp [processCommitCore, ha', ht, tagScan_snd, apply_ite]
    · have ht' : anyTagMatch name e.message = false := Bool.eq_false_iff.mpr ht
      simp [processCommitCore, ha', ht', tagScan_snd, apply_ite]

theorem core_min_year (name : String) (d v : Nat) (e : CacheEntry) (c : Commit)
    (ob : Obs)
    (h : ¬(author_matches name e.author_name e.author_email = true
           ∧ 1 < c.parentCount)) :
    (processCommitCore name d v e c ob).min_year
      = (if (author_matches name e.author_name e.author_email
             || anyTagMatch name e.message) = true
         then minUpd ob.min_year e.year else ob.min_year) := by
  by_cases ha : author_matches name e.author_name e.author_email = true
  · have hm : ¬ 1 < c.parentCount := fun hm => h ⟨ha, hm⟩
    have hd : decide (1 < c.parentCount) = false := decide_eq_false hm
    by_cases hv : 2 ≤ v <;>
      simp [processCommitCore, ha, hd, hv, tagScan_snd,
        applyDirStats_min_year, apply_ite]
  · have ha' : author_matches name e.author_name e.author_email = false :=
      Bool.eq_false_iff.mpr ha
    by_cases ht : anyTagMatch name e.message = true
    · simp [processCommitCore, ha', ht, tagScan_snd, apply_ite]
    · have ht' : anyTagMatch name e.message = false := Bool.eq_false_iff.mpr ht
      simp [processCommitCore, ha', ht', tagScan_snd, apply_ite]

theorem core_contrib_author (name : String) (d v : Nat) (e : CacheEntry)
    (c : Commit) (ob : Obs)
    (ha : author_matches name e.author_name e.author_email = true)
    (hm : ¬ 1 < c.parentCount) (y : Int) :
    (processCommitCore name d v e c ob).contributions "Author" y
      = (if y = e.year then ob.contributions "Author" y + 1
         else ob.contributions "Author" y) := by
  have hd : decide (1 < c.parentCount) = false := decide_eq_false hm
  by_cases hv : 2 ≤ v <;>
    simp [processCommitCore, ha, hd, hv, apply_ite, tagScan_fst_author,
      applyDirStats_contributions, bump2]

theorem core_contrib_merges_nonmerge (name : String) (d v : Nat)
    (e : CacheEntry) (c : Commit) (ob : Obs)
    (ha : author_matches name e.author_name e.author_email = true)
    (hm : ¬ 1 < c.parentCount) (y : Int) :
    (processCommitCore name d v e c ob).contributions "Merges" y
      = ob.contributions "Merges" y := by
  have hd : decide (1 < c.parentCount) = false := decide_eq_false hm
  by_cases hv : 2 ≤ v <;>
    simp [processCommitCore, ha, hd, hv, apply_ite, tagScan_fst_merges,
      applyDirStats_contributions, bump2]

theorem core_contrib_nonauthor (name : String) (d v : Nat) (e : CacheEntry)
    (c : Commit) (ob : Obs)
    (ha : author_matches name e.author_name e.author_email = false) :
    (∀ y, (processCommitCore name d v e c ob).contributions "Author" y
        = ob.contributions "Author" y) ∧
    (∀ y, (processCommitCore name d v e c ob).contributions "Merges" y
        = ob.contributions "Merges" y) := by
  refine ⟨fun y => ?_, fun y => ?_⟩ <;>
  · simp only [processCommitCore, ha, Bool.false_and, Bool.false_eq_true,
      if_false]
    split <;> simp [tagScan_fst_author, tagScan_fst_merges]

theorem applyDirStats_dir_commits (d : Nat) (files : List String) (ob : Obs) :
    (applyDirStats d files ob).dir_commits
      = fun dir => if dir ∈ touchedDirs d files then ob.dir_commits dir + 1
                   else ob.dir_commits dir := by
  simp only [applyDirStats]
  rw [dirFold_touched]
  rfl

theorem applyDirStats_dir_files_mem (d : Nat) (files : List String) (ob : Obs)
    (q : String) (hq : q ∈ ob.seen_files) (dir : String) :
    (q ∈ (applyDirStats d files ob).dir_files dir ↔ q ∈ ob.dir_files dir) := by
  simp only [applyDirStats]
  exact (dirFold_dedup d q files ⟨[], ob.dir_files, ob.seen_files⟩ hq).1 dir

theorem core_dir_fields (name : String) (d v : Nat) (e : CacheEntry)
    (c : Commit) (ob : Obs)
    (ha : author_matches name e.author_name e.author_email = true)
    (hm : ¬ 1 < c.parentCount) (hv : 2 ≤ v) :
    (processCommitCore name d v e c ob).dir_commits
        = (applyDirStats d c.files
            { ob with
              contributions := bump2 ob.contributions "Author" e.year 1,
              email_usage := fun em =>
                if em = e.author_email then setAddInt (ob.email_usage em) e.year
                else ob.email_usage em,
              email_author_counts :=
                bump1 ob.email_author_counts e.author_email }).dir_commits
      ∧ (processCommitCore name d v e c ob).dir_files
        = (applyDirStats d c.files
            { ob with
              contributions := bump2 ob.contributions "Author" e.year 1,
              email_usage := fun em =>
                if em = e.author_email then setAddInt (ob.email_usage em) e.year
                else ob.email_usage em,
              email_author_counts :=
                bump1 ob.email_author_counts e.author_email }).dir_files := by
  have hd : decide (1 < c.parentCount) = false := decide_eq_false hm
  constructor <;> simp [processCommitCore, ha, hd, hv, apply_ite]

theorem core_dir_commits (name : String) (d v : Nat) (e : CacheEntry)
    (c : Commit) (ob : Obs)
    (ha : author_matches name e.author_name e.author_email = true)
    (hm : ¬ 1 < c.parentCount) (hv : 2 ≤ v) (dir : String) :
    (processCommitCore name d v e c ob).dir_commits dir
      = (if dir ∈ touchedDirs d c.files then ob.dir_commits dir + 1
         else ob.dir_commits dir) := by
  rw [(core_dir_fields name d v e c ob ha hm hv).1, applyDirStats_dir_commits]

theorem core_dir_files_mem (name : String) (d v : Nat) (e : CacheEntry)
    (c : Commit) (ob : Obs)
    (ha : author_matches name e.author_name e.author_email = true)
    (hm : ¬ 1 < c.parentCount) (hv : 2 ≤ v) (q : String)
    (hq : q ∈ ob.seen_files) (dir : String) :
    (q ∈ (processCommitCore name d v e c ob).dir_files dir
      ↔ q ∈ ob.dir_files dir) := by
  rw [(core_dir_fields name d v e c ob ha hm hv).2]
  exact applyDirStats_dir_files_mem d c.files _ q hq dir

/-! ## Lemmas about `scan_tags` -/

theorem scanTags_fold_eq (name msg : String) :
    ∀ (l : List String) (init : List (String × Nat)),
      l.foldl (fun acc tag =>
        let cnt := findallCount tag name msg
        if 0 < cnt then acc ++ [(tag, cnt)] else acc) init
      = init ++ l.filterMap (fun tag =>
          let cnt := findallCount tag name msg
          if 0 < cnt then some (tag, cnt) else none) := by
  intro l
  induction l with
  | nil => intro init; simp
  | cons t rest ih =>
      intro init
      by_cases h : 0 < findallCount t name msg <;>
        simp [h, ih, List.filterMap_cons]

theorem scan_tags_eq (name msg : String) :
    scan_tags name msg = LINUX_TAGS.filterMap (fun tag =>
      let cnt := findallCount tag name msg
      if 0 < cnt then some (tag, cnt) else none) := by
  unfold scan_tags
  simpa using scanTags_fold_eq name msg LINUX_TAGS []

theorem mem_scan_tags (name msg : String) (p : String × Nat)
    (hp : p ∈ scan_tags name msg) :
    p.1 ∈ LINUX_TAGS ∧ 0 < p.2 ∧ p.2 = findallCount p.1 name msg := by
  rw [scan_tags_eq] at hp
  rcases List.mem_filterMap.mp hp with ⟨tag, htag, heq⟩
  by_cases h : 0 < findallCount tag name msg
  · simp only [if_pos h] at heq
    cases heq
    exact ⟨htag, h, rfl⟩
  · simp [if_neg h] at heq

theorem tagLookup_filterMap_none (name msg : String) (tg : String)
    (h : findallCount tg name msg = 0) :
    ∀ l : List String,
      tagLookup (l.filterMap (fun tag =>
        let cnt := findallCount tag name msg
        if 0 < cnt then some (tag, cnt) else none)) tg = none := by
  intro l
  induction l with
  | nil => rfl
  | cons t rest ih =>
      by_cases ht : 0 < findallCount t name msg
      · simp only [List.filterMap_cons, if_pos ht]
        have htg : t ≠ tg := by
          intro he
          rw [he, h] at ht
          exact Nat.lt_irrefl 0 ht
        simpa [tagLookup, htg] using ih
      · simpa [List.filterMap_cons, if_neg ht] using ih

theorem scan_tags_absent (name msg : String) (tg : String)
    (h : findallCount tg name msg = 0) :
    tagLookup (scan_tags name msg) tg = none := by
  rw [scan_tags_eq]
  exact tagLookup_filterMap_none name msg tg h LINUX_TAGS

/-! ## Claim theorems -/

/-- C1 counterexample: on the spec scenario (non-merge author-matched
commit in 2020, merge author-matched commit in 2021) the code returns
years = [2020], not [2020, 2021]: the `continue` for author-matched merge
commits skips the year bookkeeping, so 2021 is never added. -/
theorem claim1_counterexample :
    (parse_git_commits "Amit Kucheria" [commitA, commitB] [] 2 0).years = [2020] ∧
    (parse_git_commits "Amit Kucheria" [commitA, commitB] [] 2 0).years ≠ [2020, 2021] := by
  decide

/-- C1 amended: a commit's year is added to the years-seen set and the
running minimum updated whenever author-match or any trailer match
occurred, EXCEPT that an author-matched merge commit is skipped entirely
(its year is not recorded); hence the scenario yields
contributions = {Author: {2020: 1}, Merges: {2021: 1}}, years = [2020],
min_year = 2020. -/
theorem claim1_amended :
    (∀ (name : String) (d v : Nat) (cache : Cache) (st : AggState) (c : Commit),
      author_matches name (metaOf cache c).author_name
        (metaOf cache c).author_email = true →
      1 < c.parentCount →
        (processCommit name d v cache st c).obs.all_years = st.obs.all_years ∧
        (processCommit name d v cache st c).obs.min_year = st.obs.min_year) ∧
    (∀ (name : String) (d v : Nat) (cache : Cache) (st : AggState) (c : Commit),
      ¬(author_matches name (metaOf cache c).author_name
          (metaOf cache c).author_email = true ∧ 1 < c.parentCount) →
        (processCommit name d v cache st c).obs.all_years
          = (if (author_matches name (metaOf cache c).author_name
                   (metaOf cache c).author_email
                 || anyTagMatch name (metaOf cache c).message) = true
             then setAddInt st.obs.all_years (metaOf cache c).year
             else st.obs.all_years) ∧
        (processCommit name d v cache st c).obs.min_year
          = (if (author_matches name (metaOf cache c).author_name
                   (metaOf cache c).author_email
                 || anyTagMatch name (metaOf cache c).message) = true
             then minUpd st.obs.min_year (metaOf cache c).year
             else st.obs.min_year)) ∧
    ((parse_git_commits "Amit Kucheria" [commitA, commitB] [] 2 0).contributions
        "Author" 2020 = 1 ∧
     (parse_git_commits "Amit Kucheria" [commitA, commitB] [] 2 0).contributions
        "Merges" 2021 = 1 ∧
     (parse_git_commits "Amit Kucheria" [commitA, commitB] [] 2 0).contributions
        "Author" 2021 = 0 ∧
     (parse_git_commits "Amit Kucheria" [commitA, commitB] [] 2 0).contributions
        "Merges" 2020 = 0 ∧
     (parse_git_commits "Amit Kucheria" [commitA, commitB] [] 2 0).years = [2020] ∧
     (parse_git_commits "Amit Kucheria" [commitA, commitB] [] 2 0).min_year
        = some 2020) := by
  refine ⟨?_, ?_, by decide⟩
  · intro name d v cache st c ha hm
    constructor
    · rw [processCommit_obs, coreMerge name d v (metaOf cache c) c st.obs ha hm]
    · rw [processCommit_obs, coreMerge name d v (metaOf cache c) c st.obs ha hm]
  · intro name d v cache st c h
    refine ⟨?_, ?_⟩
    · rw [processCommit_obs]
      exact core_all_years name d v (metaOf cache c) c st.obs h
    · rw [processCommit_obs]
      exact core_min_year name d v (metaOf cache c) c st.obs h

/-- C1 witness: the amended skip rule applied to the concrete merge
commit of the scenario. -/
theorem claim1_witness :
    author_matches "Amit Kucheria" (metaOf [] commitB).author_name
      (metaOf [] commitB).author_email = true ∧
    1 < commitB.parentCount ∧
    (processCommit "Amit Kucheria" 2 0 [] initState commitB).obs.all_years
      = initState.obs.all_years :=
  ⟨by decide, by decide,
   (claim1_amended.1 "Amit Kucheria" 2 0 [] initState commitB
     (by decide) (by decide)).1⟩

/-- C2 counterexample: a merge commit whose author does not match the
identity still has its message trailer-scanned, so processing it
increases the "Reviewed-by" count — contradicting "never increases any
trailer-tag count" for merge commits. -/
theorem claim2_counterexample :
    1 < commitMergeTrailer.parentCount ∧
    (parse_git_commits "Jane" [commitMergeTrailer] [] 2 0).contributions
      "Reviewed-by" 2021 = 1 ∧
    "Reviewed-by" ∈ LINUX_TAGS := by decide

/-- C2 amended: a merge commit contributes exclusively to "Merges" only
when its author matches the identity (then no Author and no trailer count
changes, even if the identity appears in its trailers); a merge commit
whose author does not match is still trailer-scanned and can increment
trailer-tag counts, though it never increments Author or Merges (no
commit with a non-matching author ever does). -/
theorem claim2_amended :
    (∀ (name : String) (d v : Nat) (cache : Cache) (st : AggState) (c : Commit),
      author_matches name (metaOf cache c).author_name
        (metaOf cache c).author_email = true →
      1 < c.parentCount →
        (processCommit name d v cache st c).obs.contributions "Merges"
            (metaOf cache c).year
          = st.obs.contributions "Merges" (metaOf cache c).year + 1 ∧
        (∀ y, (processCommit name d v cache st c).obs.contributions "Author" y
          = st.obs.contributions "Author" y) ∧
        (∀ tg, tg ∈ LINUX_TAGS → ∀ y,
          (processCommit name d v cache st c).obs.contributions tg y
            = st.obs.contributions tg y)) ∧
    (∀ (name : String) (d v : Nat) (cache : Cache) (st : AggState) (c : Commit),
      author_matches name (metaOf cache c).author_name
        (metaOf cache c).author_email = false →
        (∀ y, (processCommit name d v cache st c).obs.contributions "Author" y
          = st.obs.contributions "Author" y) ∧
        (∀ y, (processCommit name d v cache st c).obs.contributions "Merges" y
          = st.obs.contributions "Merges" y)) ∧
    ((parse_git_commits "Jane" [commitMergeTrailer] [] 2 0).contributions
        "Reviewed-by" 2021 = 1 ∧
     (parse_git_commits "Jane" [commitMergeTrailer] [] 2 0).contributions
        "Author" 2021 = 0 ∧
     (parse_git_commits "Jane" [commitMergeTrailer] [] 2 0).contributions
        "Merges" 2021 = 0) := by
  refine ⟨?_, ?_, by decide⟩
  · intro name d v cache st c ha hm
    rw [processCommit_obs, coreMerge name d v (metaOf cache c) c st.obs ha hm]
    have htags : ∀ tg ∈ LINUX_TAGS, tg ≠ "Merges" := by decide
    have hAuthor : ("Author" : String) ≠ "Merges" := by decide
    exact ⟨bump2_self st.obs.contributions "Merges" (metaOf cache c).year 1,
           fun y => bump2_ne st.obs.contributions "Merges" (metaOf cache c).year 1
             "Author" y (fun hc => hAuthor hc.1),
           fun tg htg y => bump2_ne st.obs.contributions "Merges" (metaOf cache c).year 1
             tg y (fun hc => htags tg htg hc.1)⟩
  · intro name d v cache st c ha
    constructor
    · intro y
      rw [processCommit_obs]
      exact (core_contrib_nonauthor name d v (metaOf cache c) c st.obs ha).1 y
    · intro y
      rw [processCommit_obs]
      exact (core_contrib_nonauthor name d v (metaOf cache c) c st.obs ha).2 y

/-- C2 witness: the merge-exclusivity rule applied to the concrete
author-matched merge commit of the scenario, and the Author/Merges
preservation applied to the concrete merge commit whose author does not
match. -/
theorem claim2_witness :
    (author_matches "Amit Kucheria" (metaOf [] commitB).author_name
      (metaOf [] commitB).author_email = true ∧
     1 < commitB.parentCount ∧
     (processCommit "Amit Kucheria" 2 0 [] initState commitB).obs.contributions
        "Merges" (metaOf [] commitB).year
      = initState.obs.contributions "Merges" (metaOf [] commitB).year + 1) ∧
    (author_matches "Jane" (metaOf [] commitMergeTrailer).author_name
      (metaOf [] commitMergeTrailer).author_email = false ∧
     (processCommit "Jane" 2 0 [] initState commitMergeTrailer).obs.contributions
        "Author" 2021
      = initState.obs.contributions "Author" 2021) :=
  ⟨⟨by decide, by decide,
    (claim2_amended.1 "Amit Kucheria" 2 0 [] initState commitB
      (by decide) (by decide)).1⟩,
   ⟨by decide,
    (claim2_amended.2.1 "Jane" 2 0 [] initState commitMergeTrailer
      (by decide)).1 2021⟩⟩

/-- C3 counterexample: with no matched years and a freshly extended
cache, `main` prints the labeled empty-result message and exits
successfully, but returns before `save_cache`, so the cache is NOT
persisted — contradicting the claim's persistence part. -/
theorem claim3_counterexample :
    (mainReport [] true).printedNoContributions = true ∧
    (mainReport [] true).exitSuccess = true ∧
    (mainReport [] true).cacheSaved = false ∧
    ¬ (mainReport [] true).cacheSaved = true := by decide

/-- C3 amended: when no years matched, the program reports the labeled
empty-result message and exits successfully, but the early `return`
skips cache persistence: newly computed cache entries are not saved in
this case (whatever the cache-updated flag). -/
theorem claim3_amended (cache_updated : Bool) :
    mainReport [] cache_updated
      = { printedNoContributions := true, exitSuccess := true,
          cacheSaved := false } := rfl

/-- C4 counterexample: the regex is unanchored (no `^`, no
`re.MULTILINE`), so a line where the tag appears only mid-line IS
counted: the claim as stated predicts absence for this message. -/
theorem claim4_counterexample :
    tagLookup (scan_tags "Jane" "see Reviewed-by: Jane") "Reviewed-by"
      = some 1 ∧
    tagLookup (scan_tags "Jane" "see Reviewed-by: Jane") "Reviewed-by"
      ≠ none := by decide

/-- C4 amended: scan_tags counts, per recognised tag, the non-overlapping
occurrences of `<Tag>:` followed by at least one whitespace character
(which may be a newline, so a match can span two lines) and then text on
one line containing the identity; occurrences may begin mid-line; a tag
with zero matches is absent from the result (never present with zero),
and every present count equals the match count. -/
theorem claim4_amended :
    (∀ (name msg : String) (p : String × Nat), p ∈ scan_tags name msg →
      p.1 ∈ LINUX_TAGS ∧ 0 < p.2 ∧ p.2 = findallCount p.1 name msg) ∧
    (∀ name msg tg : String, findallCount tg name msg = 0 →
      tagLookup (scan_tags name msg) tg = none) ∧
    tagLookup (scan_tags "Jane" "see Reviewed-by: Jane") "Reviewed-by"
      = some 1 ∧
    findallCount "Reviewed-by" "Jane" "Reviewed-by:\n Jane ok" = 1 ∧
    findallCount "Reviewed-by" "Jane" "Reviewed-by:\tJane" = 1 ∧
    findallCount "Reviewed-by" "Jane" "Reviewed-by:Jane" = 0 := by
  refine ⟨fun name msg p hp => mem_scan_tags name msg p hp,
          fun name msg tg h => scan_tags_absent name msg tg h,
          ?_, ?_, ?_, ?_⟩ <;> decide

/-- C4 witness: absence of a tag with zero matches, at a concrete
message. -/
theorem claim4_witness :
    findallCount "Tested-by" "Jane" "nothing here" = 0 ∧
    tagLookup (scan_tags "Jane" "nothing here") "Tested-by" = none :=
  ⟨by decide, claim4_amended.2.1 "Jane" "nothing here" "Tested-by" (by decide)⟩

/-- C5 counterexample: a block in which the matching R: line precedes the
matching M: line yields role "maintainer": the unconditional overwrite in
the M: branch discards the earlier reviewer match, so the role is not
"both" regardless of order. -/
theorem claim5_counterexample :
    (process_block ["TITLE\n", "R:\tJane <j@x.com>\n", "M:\tJane <j@x.com>\n"]
        "Jane").map (fun si => si.role) = some "maintainer" ∧
    (process_block ["TITLE\n", "R:\tJane <j@x.com>\n", "M:\tJane <j@x.com>\n"]
        "Jane").map (fun si => si.role) ≠ some "both" := by decide

/-- C5 amended: the produced role depends on the order of the matching
lines: with a matching M: line followed by a matching R: line the role
is "both", but with the matching R: line first the later M: match
overwrites the role to "maintainer". -/
theorem claim5_amended (name t m r : String)
    (ht1 : pyStartsWith t " " = false) (ht2 : pyStartsWith t "\t" = false)
    (ht3 : (pyStrip t != "") = true)
    (hm1 : pyStartsWith m "M:" = true)
    (hm2 : strContains (lowerStr m) (lowerStr name) = true)
    (hr1 : pyStartsWith r "R:" = true) (hr2 : pyStartsWith r "M:" = false)
    (hr3 : strContains (lowerStr r) (lowerStr name) = true) :
    (process_block [t, m, r] name).map (fun si => si.role) = some "both" ∧
    (process_block [t, r, m] name).map (fun si => si.role)
      = some "maintainer" := by
  constructor <;>
    simp [process_block, blockStep, titleTruthy,
      ht1, ht2, ht3, hm1, hm2, hr1, hr2, hr3]

/-- C5 witness: the order-dependence applied to a concrete block. -/
theorem claim5_witness :
    (pyStrip "TITLE\n" != "") = true ∧
    (process_block ["TITLE\n", "M:\tJane <j@x.com>\n", "R:\tJane <j@x.com>\n"]
        "Jane").map (fun si => si.role) = some "both" :=
  ⟨by decide,
   (claim5_amended "Jane" "TITLE\n" "M:\tJane <j@x.com>\n" "R:\tJane <j@x.com>\n"
     (by decide) (by decide) (by decide) (by decide) (by decide)
     (by decide) (by decide) (by decide)).1⟩

/-- C7 (confirmed): the identity is matched as literal text (it is
escaped before being interpolated into the pattern): a positive match
count implies the identity occurs literally (case-insensitively) in the
message; the "Reviewed-by: Jane Q. Doe" message counts exactly 1 for
identity "Jane Q. Doe"; the regex metacharacter "." does not act as a
wildcard ("Jane Qx Doe" does not match); "C++" matches literally. -/
theorem claim7 :
    (∀ tag name msg : String, 0 < findallCount tag name msg →
      occursInCI name.data msg.data = true) ∧
    (parse_git_commits "Jane Q. Doe" [commitReviewed] [] 2 0).contributions
      "Reviewed-by" 2020 = 1 ∧
    findallCount "Reviewed-by" "Jane Q. Doe"
      "Reviewed-by: Jane Qx Doe <jane@x.com>" = 0 ∧
    findallCount "Signed-off-by" "C++" "Signed-off-by: C++ Team <t@x.com>" = 1 := by
  refine ⟨findallCount_occurs, ?_, ?_, ?_⟩ <;> decide

/-- C7 witness: literal-occurrence soundness at a concrete message. -/
theorem claim7_witness :
    0 < findallCount "Reviewed-by" "Jane" "Reviewed-by: Jane <j@x.com>" ∧
    occursInCI "Jane".data "Reviewed-by: Jane <j@x.com>".data = true :=
  ⟨by decide,
   claim7.1 "Reviewed-by" "Jane" "Reviewed-by: Jane <j@x.com>" (by decide)⟩

/-- C8 (confirmed): with directory statistics enabled, a matched
non-merge commit increments each touched directory's commit counter
exactly once per commit (regardless of how many files it changed under
that directory); a file path already seen in the run is never added
again to any directory's file set; hence two commits changing the same
file give commit counter 2 but unique-file count 1. -/
theorem claim8 :
    (∀ (name : String) (d v : Nat) (cache : Cache) (st : AggState)
       (c : Commit) (dir : String),
      author_matches name (metaOf cache c).author_name
        (metaOf cache c).author_email = true →
      ¬ 1 < c.parentCount → 2 ≤ v →
      (processCommit name d v cache st c).obs.dir_commits dir
        = (if dir ∈ touchedDirs d c.files then st.obs.dir_commits dir + 1
           else st.obs.dir_commits dir)) ∧
    (∀ (name : String) (d v : Nat) (cache : Cache) (st : AggState)
       (c : Commit) (q dir : String),
      author_matches name (metaOf cache c).author_name
        (metaOf cache c).author_email = true →
      ¬ 1 < c.parentCount → 2 ≤ v → q ∈ st.obs.seen_files →
      (q ∈ (processCommit name d v cache st c).obs.dir_files dir
        ↔ q ∈ st.obs.dir_files dir)) ∧
    ((parse_git_commits "Jane" [commitJane1, commitJane2] [] 2 2).dir_commits
        "drivers/foo" = 2 ∧
     ((parse_git_commits "Jane" [commitJane1, commitJane2] [] 2 2).dir_files
        "drivers/foo").length = 1) := by
  refine ⟨?_, ?_, by decide⟩
  · intro name d v cache st c dir ha hm hv
    rw [processCommit_obs]
    exact core_dir_commits name d v (metaOf cache c) c st.obs ha hm hv dir
  · intro name d v cache st c q dir ha hm hv hq
    rw [processCommit_obs]
    exact core_dir_files_mem name d v (metaOf cache c) c st.obs ha hm hv q hq dir

/-- C8 witness: the once-per-commit increment applied to a concrete
commit. -/
theorem claim8_witness :
    author_matches "Jane" (metaOf [] commitJane1).author_name
      (metaOf [] commitJane1).author_email = true ∧
    ¬ 1 < commitJane1.parentCount ∧ 2 ≤ 2 ∧
    (processCommit "Jane" 2 2 [] initState commitJane1).obs.dir_commits
        "drivers/foo"
      = (if "drivers/foo" ∈ touchedDirs 2 commitJane1.files
         then initState.obs.dir_commits "drivers/foo" + 1
         else initState.obs.dir_commits "drivers/foo") :=
  ⟨by decide, by decide, by decide,
   claim8.1 "Jane" 2 2 [] initState commitJane1 "drivers/foo"
     (by decide) (by decide) (by decide)⟩

/-- C9 (confirmed): author_match is true exactly when the lowercased
identity occurs as a contiguous substring of the lowercased author name
or of the lowercased author email; in particular "doe" matches author
"Jane Doe" with email "jd@x.com". -/
theorem claim9 :
    (∀ name author email : String,
      author_matches name author email = true ↔
        ((∃ p t, (lowerStr author).data = p ++ (lowerStr name).data ++ t) ∨
         (∃ p t, (lowerStr email).data = p ++ (lowerStr name).data ++ t))) ∧
    author_matches "doe" "Jane Doe" "jd@x.com" = true := by
  constructor
  · intro name author email
    unfold author_matches strContains
    rw [Bool.or_eq_true, occursIn_iff_exists, occursIn_iff_exists]
  · decide

/-- C10 (confirmed): with the empty identity the author test succeeds on
every commit (the empty string is a substring of everything), so each
merge commit adds 1 to Merges for its year and each non-merge commit
adds 1 to Author for its year. -/
theorem claim10 (d v : Nat) (cache : Cache) (st : AggState) (c : Commit) :
    author_matches "" (metaOf cache c).author_name
      (metaOf cache c).author_email = true ∧
    (processCommit "" d v cache st c).obs.contributions "Merges"
        (metaOf cache c).year
      = st.obs.contributions "Merges" (metaOf cache c).year
        + (if 1 < c.parentCount then 1 else 0) ∧
    (processCommit "" d v cache st c).obs.contributions "Author"
        (metaOf cache c).year
      = st.obs.contributions "Author" (metaOf cache c).year
        + (if 1 < c.parentCount then 0 else 1) := by
  have ha : ∀ a e : String, author_matches "" a e = true := by
    intro a e
    have h1 : strContains (lowerStr a) (lowerStr "") = true :=
      occursIn_nil_needle (lowerStr a).data
    simp [author_matches, h1]
  refine ⟨ha _ _, ?_, ?_⟩
  · by_cases hm : 1 < c.parentCount
    · rw [processCommit_obs, coreMerge "" d v (metaOf cache c) c st.obs (ha _ _) hm,
        if_pos hm]
      exact bump2_self st.obs.contributions "Merges" (metaOf cache c).year 1
    · rw [processCommit_obs, if_neg hm]
      simpa using
        core_contrib_merges_nonmerge "" d v (metaOf cache c) c st.obs (ha _ _) hm
          (metaOf cache c).year
  · by_cases hm : 1 < c.parentCount
    · rw [processCommit_obs, coreMerge "" d v (metaOf cache c) c st.obs (ha _ _) hm,
        if_pos hm]
      simpa using
        bump2_ne st.obs.contributions "Merges" (metaOf cache c).year 1
          "Author" (metaOf cache c).year (fun hc => absurd hc.1 (by decide))
    · rw [processCommit_obs, if_neg hm]
      simpa using
        core_contrib_author "" d v (metaOf cache c) c st.obs (ha _ _) hm
          (metaOf cache c).year

/-- C6 (confirmed): over a commit list with pairwise-distinct
identifiers, a second run starting from the cache produced by the first
run yields identical contributions, min year, years, email usage, email
author counts and directory statistics; the second run computes zero new
cache entries and reports the cache-extended flag as false; and a cached
commit's metadata is returned verbatim without touching the new-entry
set. -/
theorem claim6 (name : String) (d v : Nat) (commits : List Commit) (c0 : Cache)
    (h : commits.Pairwise (fun a b => a.hexsha ≠ b.hexsha)) :
    ((parse_git_commits name commits
        (parse_git_commits name commits c0 d v).cache_out d v).contributions
        = (parse_git_commits name commits c0 d v).contributions ∧
     (parse_git_commits name commits
        (parse_git_commits name commits c0 d v).cache_out d v).min_year
        = (parse_git_commits name commits c0 d v).min_year ∧
     (parse_git_commits name commits
        (parse_git_commits name commits c0 d v).cache_out d v).years
        = (parse_git_commits name commits c0 d v).years ∧
     (parse_git_commits name commits
        (parse_git_commits name commits c0 d v).cache_out d v).email_usage
        = (parse_git_commits name commits c0 d v).email_usage ∧
     (parse_git_commits name commits
        (parse_git_commits name commits c0 d v).cache_out d v).email_author_counts
        = (parse_git_commits name commits c0 d v).email_author_counts ∧
     (parse_git_commits name commits
        (parse_git_commits name commits c0 d v).cache_out d v).dir_commits
        = (parse_git_commits name commits c0 d v).dir_commits ∧
     (parse_git_commits name commits
        (parse_git_commits name commits c0 d v).cache_out d v).dir_files
        = (parse_git_commits name commits c0 d v).dir_files) ∧
    (parse_git_commits name commits
        (parse_git_commits name commits c0 d v).cache_out d v).new_cache = [] ∧
    (parse_git_commits name commits
        (parse_git_commits name commits c0 d v).cache_out d v).cache_updated
      = false ∧
    (∀ (c : Commit) (cache nc : Cache) (e : CacheEntry),
      dictLookup cache c.hexsha = some e →
      get_commit_metadata c cache nc = ((c.hexsha, e), nc)) := by
  have hco : (parse_git_commits name commits c0 d v).cache_out
      = dictUpdate c0 (commits.foldl (newEntriesStep c0) []) := by
    simp only [parse_git_commits]
    rw [foldl_new_cache]
    rfl
  have hKU : KeysUnique (commits.foldl (newEntriesStep c0) []) :=
    newEntries_keysUnique c0 commits [] List.Pairwise.nil
  have hmeta : ∀ c ∈ commits,
      metaOf (dictUpdate c0 (commits.foldl (newEntriesStep c0) [])) c
        = metaOf c0 c := by
    intro c hc
    cases h0 : dictLookup c0 c.hexsha with
    | some e =>
        have hx : dictLookup (commits.foldl (newEntriesStep c0) []) c.hexsha
            = none := by
          rw [newEntries_lookup_of_hit c0 c.hexsha e h0 commits []]
          rfl
        simp only [metaOf, dictLookup_update_none _ _ _ hx, h0]
    | none =>
        have hx : dictLookup (commits.foldl (newEntriesStep c0) []) c.hexsha
            = some (mkEntry c) :=
          newEntries_lookup_of_miss c0 commits [] c h hc h0
        simp only [metaOf, dictLookup_update_some _ _ _ _ hKU hx, h0]
  have hsome : ∀ c ∈ commits,
      (dictLookup (dictUpdate c0 (commits.foldl (newEntriesStep c0) []))
        c.hexsha).isSome := by
    intro c hc
    cases h0 : dictLookup c0 c.hexsha with
    | some e =>
        have hx : dictLookup (commits.foldl (newEntriesStep c0) []) c.hexsha
            = none := by
          rw [newEntries_lookup_of_hit c0 c.hexsha e h0 commits []]
          rfl
        rw [dictLookup_update_none _ _ _ hx, h0]
        rfl
    | none =>
        have hx : dictLookup (commits.foldl (newEntriesStep c0) []) c.hexsha
            = some (mkEntry c) :=
          newEntries_lookup_of_miss c0 commits [] c h hc h0
        rw [dictLookup_update_some _ _ _ _ hKU hx]
        rfl
  have hobs : (commits.foldl (processCommit name d v
        (dictUpdate c0 (commits.foldl (newEntriesStep c0) []))) initState).obs
      = (commits.foldl (processCommit name d v c0) initState).obs :=
    foldl_obs_congr name d v _ c0 commits initState initState rfl hmeta
  have hnc2 : (commits.foldl (processCommit name d v
        (dictUpdate c0 (commits.foldl (newEntriesStep c0) []))) initState).new_cache
      = [] := by
    rw [foldl_new_cache]
    exact newEntries_all_hit _ commits [] hsome
  refine ⟨⟨?_, ?_, ?_, ?_, ?_, ?_, ?_⟩, ?_, ?_, ?_⟩
  · rw [hco]; simp only [parse_git_commits]
    exact congrArg Obs.contributions hobs
  · rw [hco]; simp only [parse_git_commits]
    exact congrArg Obs.min_year hobs
  · rw [hco]; simp only [parse_git_commits]
    exact congrArg (fun o => sortInts o.all_years) hobs
  · rw [hco]; simp only [parse_git_commits]
    exact congrArg Obs.email_usage hobs
  · rw [hco]; simp only [parse_git_commits]
    exact congrArg Obs.email_author_counts hobs
  · rw [hco]; simp only [parse_git_commits]
    exact congrArg Obs.dir_commits hobs
  · rw [hco]; simp only [parse_git_commits]
    exact congrArg Obs.dir_files hobs
  · rw [hco]; simp only [parse_git_commits]
    exact hnc2
  · rw [hco]; simp only [parse_git_commits]
    rw [hnc2]
    rfl
  · intro c cache nc e he
    simp [get_commit_metadata, he]

/-- C6 witness: the two-run agreement applied to the concrete two-commit
history with an initially empty cache. -/
theorem claim6_witness :
    ([commitA, commitB] : List Commit).Pairwise
      (fun a b => a.hexsha ≠ b.hexsha) ∧
    (parse_git_commits "Amit Kucheria" [commitA, commitB]
        (parse_git_commits "Amit Kucheria" [commitA, commitB] [] 2 0).cache_out
        2 0).new_cache = [] :=
  ⟨by decide,
   (claim6 "Amit Kucheria" 2 0 [commitA, commitB] [] (by decide)).2.1⟩
